import Mathlib

/-!
Verification of the portfolio-optimization validation logic of
`code/chapter6/chapter6_3_1.ipynb` (pcrm-book): the quadratic
target-return problem, the target-risk second-order-cone formulation,
the tracking-error formulation over a doubled decision vector, and the
validator that compares their solutions.
-/

open Matrix

namespace PortfolioSpec

/-- Means vector and covariance matrix for an `n`-asset universe
(spec §3 MomentsData; loaded by `ft.load_parameters()` in the source). -/
structure MomentsData (n : ℕ) where
  means : Fin n → ℝ
  cov : Matrix (Fin n) (Fin n) ℝ

/-- Linear inequality constraints `G·w ≤ h` with row index type `ι`
(spec §3 LinearConstraintSet; `G`, `h` of the source). -/
structure LinearConstraintSet (ι : Type) (n : ℕ) where
  G : Matrix ι (Fin n) ℝ
  h : ι → ℝ

/-- `w` satisfies every row of the linear inequality block. -/
def LinFeasible {ι : Type} {n : ℕ} (C : LinearConstraintSet ι n) (w : Fin n → ℝ) : Prop :=
  ∀ r, C.G.mulVec w r ≤ C.h r

/-- The quadratic form `wᵗ·Σ·w` (realized variance), as recomputed by the
validation cells of the source (`e.T @ cov @ e`). -/
def quadForm {n : ℕ} (S : Matrix (Fin n) (Fin n) ℝ) (w : Fin n → ℝ) : ℝ :=
  w ⬝ᵥ S.mulVec w

/-- Realized volatility `√(wᵗ·Σ·w)` (source: `np.sqrt(e.T @ cov @ e)`). -/
noncomputable def realizedVol {n : ℕ} (S : Matrix (Fin n) (Fin n) ℝ) (w : Fin n → ℝ) : ℝ :=
  Real.sqrt (quadForm S w)

/-- Realized expected return `μᵗ·w` (source: `means @ e`). -/
def realizedReturn {n : ℕ} (means w : Fin n → ℝ) : ℝ :=
  means ⬝ᵥ w

/-- Realized tracking error of `w` against benchmark `bm`
(source cell 7: `te_pf = e_star_risk - e_bm; np.sqrt(te_pf.T @ cov @ te_pf)`). -/
noncomputable def trackingError {n : ℕ} (S : Matrix (Fin n) (Fin n) ℝ)
    (w bm : Fin n → ℝ) : ℝ :=
  realizedVol S (w - bm)

/-- The numerical conditioning constant of the source (`scalar = 100`). -/
def scalar : ℝ := 100

theorem scalar_pos : 0 < scalar := by norm_num [scalar]

/-! ### The quadratic target-return problem

Modelled from the spec: the source delegates this problem to the external
`fortitudo.tech` `MeanVariance.efficient_portfolio` solver, whose contract
(spec §4.1) is: minimize `wᵗ·Σ·w` subject to `G·w ≤ h`, the budget
equality `1ᵗ·w = 1`, and the return target `μᵗ·w = r`. -/

/-- Feasibility for the quadratic target-return problem: linear
constraints, fully-invested budget, and the exact return target. -/
def QuadFeasible {ι : Type} {n : ℕ} (d : MomentsData n) (C : LinearConstraintSet ι n)
    (r : ℝ) (w : Fin n → ℝ) : Prop :=
  LinFeasible C w ∧ (∑ i, w i) = 1 ∧ realizedReturn d.means w = r

/-- Modelled from the spec: `e_star` is an output of the external
quadratic solver, i.e. a variance minimizer over `QuadFeasible`. -/
def IsQuadOptimal {ι : Type} {n : ℕ} (d : MomentsData n) (C : LinearConstraintSet ι n)
    (r : ℝ) (w : Fin n → ℝ) : Prop :=
  QuadFeasible d C r w ∧
    ∀ v, QuadFeasible d C r v → quadForm d.cov w ≤ quadForm d.cov v

/-! ### The target-risk cone formulation (source cell 5)

The source builds `Gq = [zeros(1, I); L]` with `L = -cholesky(scalar² · Σ)`,
`hq = [risk_target * scalar; zeros(I)]`, budget equality `A = ones(1,I)`,
`b = [1]`, and objective `c = -means * scalar`, then calls `cvxopt.socp`.
`cvxopt`'s second-order-cone constraint for a block `(Gq, hq)` is
`‖(hq - Gq·x)[1:]‖₂ ≤ (hq - Gq·x)[0]`. -/

/-- The cone matrix of the source: row `0` is zero, rows `1..n` hold the
factor `L` (`Gq[0][1:, 0:] = L`). -/
def coneMatrix {n : ℕ} {m : Type} (L : Matrix (Fin n) m ℝ) :
    Matrix (Fin (n + 1)) m ℝ :=
  Matrix.of fun i c => Fin.cases 0 (fun k => L k c) i

/-- The cone right-hand side of the source: `hq[0] = radius`, the rest `0`. -/
def hqVec {n : ℕ} (radius : ℝ) : Fin (n + 1) → ℝ :=
  fun i => if i = 0 then radius else 0

/-- `cvxopt`'s second-order-cone membership for one block `(Gq, hq)`:
`‖(hq - Gq·x)[1:]‖₂ ≤ (hq - Gq·x)[0]`. -/
noncomputable def SOCSat {n : ℕ} {m : Type} [Fintype m] (Gq : Matrix (Fin (n + 1)) m ℝ)
    (hq : Fin (n + 1) → ℝ) (x : m → ℝ) : Prop :=
  Real.sqrt (∑ k : Fin n, (hq k.succ - Gq.mulVec x k.succ) ^ 2) ≤ hq 0 - Gq.mulVec x 0

/-- Feasibility of the assembled target-risk cone program of source cell 5:
`G·w ≤ h`, budget row `A·w = 1`, and the cone block built from `L`. -/
noncomputable def RiskFeasible {ι : Type} {n : ℕ} (C : LinearConstraintSet ι n)
    (L : Matrix (Fin n) (Fin n) ℝ) (ρ : ℝ) (w : Fin n → ℝ) : Prop :=
  LinFeasible C w ∧ (∑ i, w i) = 1 ∧
    SOCSat (coneMatrix L) (hqVec (ρ * scalar)) w

/-- Modelled from the spec: `e_star_risk` is an output of the external
`socp` call of cell 5, i.e. a minimizer of `cᵗ·w` with
`c = -(means · scalar)` over the assembled feasible set. -/
noncomputable def IsRiskOptimal {ι : Type} {n : ℕ} (d : MomentsData n)
    (C : LinearConstraintSet ι n) (L : Matrix (Fin n) (Fin n) ℝ) (ρ : ℝ)
    (w : Fin n → ℝ) : Prop :=
  RiskFeasible C L ρ w ∧
    ∀ v, RiskFeasible C L ρ v →
      (fun i => -(scalar * d.means i)) ⬝ᵥ w ≤ (fun i => -(scalar * d.means i)) ⬝ᵥ v

/-- The semantic (unscaled) form of the target-risk feasible set:
linear constraints, budget, and realized volatility at most `ρ`. -/
noncomputable def ConeFeasible {ι : Type} {n : ℕ} (d : MomentsData n)
    (C : LinearConstraintSet ι n) (ρ : ℝ) (w : Fin n → ℝ) : Prop :=
  LinFeasible C w ∧ (∑ i, w i) = 1 ∧ realizedVol d.cov w ≤ ρ

/-- The semantic form of target-risk optimality: maximize `μᵗ·w` over
`ConeFeasible`. -/
noncomputable def IsConeOptimal {ι : Type} {n : ℕ} (d : MomentsData n)
    (C : LinearConstraintSet ι n) (ρ : ℝ) (w : Fin n → ℝ) : Prop :=
  ConeFeasible d C ρ w ∧
    ∀ v, ConeFeasible d C ρ v →
      realizedReturn d.means v ≤ realizedReturn d.means w

/-! ### The tracking-error formulation (source cells 7–10)

The decision vector is doubled to `[w; t]`; we index it by `Fin n ⊕ Fin n`
with `Sum.inl` the `w`-block and `Sum.inr` the auxiliary `t`-block. -/

/-- The `w`-block (first `I` entries) of the doubled decision vector;
source cell 10 extracts it as `['x'][0:I]`. -/
def wPart {n : ℕ} (x : Fin n ⊕ Fin n → ℝ) : Fin n → ℝ :=
  fun i => x (Sum.inl i)

/-- The auxiliary `t`-block (last `I` entries) of the doubled vector. -/
def tPart {n : ℕ} (x : Fin n ⊕ Fin n → ℝ) : Fin n → ℝ :=
  fun i => x (Sum.inr i)

/-- The equality matrix of source cell 8:
`A = vstack([ones(I) | zeros(I)], [eye(I) | -eye(I)])`. -/
def te_A (n : ℕ) : Matrix (Unit ⊕ Fin n) (Fin n ⊕ Fin n) ℝ :=
  Matrix.fromBlocks (Matrix.of fun (_ : Unit) (_ : Fin n) => 1)
    (Matrix.of fun (_ : Unit) (_ : Fin n) => 0)
    (1 : Matrix (Fin n) (Fin n) ℝ) (-(1 : Matrix (Fin n) (Fin n) ℝ))

/-- The equality right-hand side of source cell 8: `b = vstack([1], e_bm)`. -/
def te_b {n : ℕ} (bm : Fin n → ℝ) : Unit ⊕ Fin n → ℝ :=
  Sum.elim (fun _ => 1) bm

/-- The inequality block extended with `I` zero columns for the `t`-block
(source cell 8: `G = hstack((G, zeros((G.shape[0], I))))`). -/
def extendG {ι : Type} {n : ℕ} (C : LinearConstraintSet ι n) :
    Matrix ι (Fin n ⊕ Fin n) ℝ :=
  Matrix.of fun r c => Sum.elim (fun j => C.G r j) (fun _ => 0) c

/-- The extended expected-return vector of source cell 10:
`means2 = hstack((means, zeros(I)))`. -/
def means2 {n : ℕ} (means : Fin n → ℝ) : Fin n ⊕ Fin n → ℝ :=
  Sum.elim means 0

/-- The first cone matrix of source cell 9: row `0` zero, rows `1..n`
hold `L` in the `w`-columns (`Gq2[0][1:, 0:I] = L`), zeros elsewhere. -/
def Gq2_0 {n : ℕ} (L : Matrix (Fin n) (Fin n) ℝ) :
    Matrix (Fin (n + 1)) (Fin n ⊕ Fin n) ℝ :=
  coneMatrix (Matrix.of fun k c => Sum.elim (fun j => L k j) (fun _ => 0) c)

/-- The second cone matrix of source cell 9: row `0` zero, rows `1..n`
hold `L` in the `t`-columns (`Gq2[1][1:, I:] = L`), zeros elsewhere. -/
def Gq2_1 {n : ℕ} (L : Matrix (Fin n) (Fin n) ℝ) :
    Matrix (Fin (n + 1)) (Fin n ⊕ Fin n) ℝ :=
  coneMatrix (Matrix.of fun k c => Sum.elim (fun _ => 0) (fun j => L k j) c)

/-- Feasibility of the assembled tracking-error cone program of source
cells 8–10: extended inequality block, equality block `A·x = b`, and the
two cone blocks with radii `ρ·scalar` and `τ·scalar`. -/
noncomputable def TEFeasible {ι : Type} {n : ℕ} (C : LinearConstraintSet ι n)
    (L : Matrix (Fin n) (Fin n) ℝ) (ρ τ : ℝ) (bm : Fin n → ℝ)
    (x : Fin n ⊕ Fin n → ℝ) : Prop :=
  (∀ r, (extendG C).mulVec x r ≤ C.h r) ∧
    (te_A n).mulVec x = te_b bm ∧
    SOCSat (Gq2_0 L) (hqVec (ρ * scalar)) x ∧
    SOCSat (Gq2_1 L) (hqVec (τ * scalar)) x

/-- Modelled from the spec: `e_star_dual_risk`'s pre-extraction vector is
an output of the external `socp` call of cell 10, i.e. a minimizer of
`cᵗ·x` with `c = -(means2 · scalar)` over the assembled feasible set. -/
noncomputable def IsTEOptimal {ι : Type} {n : ℕ} (d : MomentsData n)
    (C : LinearConstraintSet ι n) (L : Matrix (Fin n) (Fin n) ℝ) (ρ τ : ℝ)
    (bm : Fin n → ℝ) (x : Fin n ⊕ Fin n → ℝ) : Prop :=
  TEFeasible C L ρ τ bm x ∧
    ∀ y, TEFeasible C L ρ τ bm y →
      (fun c => -(scalar * means2 d.means c)) ⬝ᵥ x ≤
        (fun c => -(scalar * means2 d.means c)) ⬝ᵥ y

/-! ### The validator (source cells 6 and 11, spec §4.5) -/

/-- The numbers reported by the validation cells (spec §3
ValidationReport): all plain numeric fields, recomputed from the moments
data, never read back from the solver. -/
structure ValidationReport where
  maxAbsDiff : ℝ
  portfolioVol : ℝ
  expectedRet : ℝ
  trackingErrVol : ℝ

/-- The validator of source cells 6 and 11: recomputes
`max |w - ref|`, `√(wᵗ·Σ·w)`, `μᵗ·w` and `√((w-bm)ᵗ·Σ·(w-bm))` from the
original moments data.  It is a total function: it reports numbers and
never fails, whatever the discrepancy. -/
noncomputable def validate {n : ℕ} (d : MomentsData (n + 1))
    (bm ref w : Fin (n + 1) → ℝ) : ValidationReport :=
  { maxAbsDiff := Finset.univ.sup' Finset.univ_nonempty fun i => |w i - ref i|
    portfolioVol := realizedVol d.cov w
    expectedRet := realizedReturn d.means w
    trackingErrVol := trackingError d.cov w bm }

/-! ### The cone-program adapter and its error handling

Modelled from the spec: the source notebook calls `cvxopt.socp` directly
and does not itself contain the status-handling core described in spec
§6–§7; we model that missing part faithfully to the spec's words. -/

/-- Modelled from the spec: the external solver's reported status
(spec §6: optimal / infeasible / unbounded / numerical-failure). -/
inductive SolverStatus where
  | optimal
  | infeasible
  | unbounded
  | numericalFailure
deriving DecidableEq

/-- Modelled from the spec: the error kinds of spec §7 surfaced by a
failed solve. -/
inductive SolveError where
  | InfeasibleProblem
  | UnboundedProblem
  | NumericalFailure
deriving DecidableEq

/-- Modelled from the spec: the raw result of the external cone-program
solver — a status and, possibly, a solution vector (spec §6). -/
structure SolverResult (n : ℕ) where
  status : SolverStatus
  x : Option (Fin n → ℝ)

/-- The error corresponding to each non-optimal solver status. -/
def statusError : SolverStatus → SolveError
  | .optimal => .NumericalFailure
  | .infeasible => .InfeasibleProblem
  | .unbounded => .UnboundedProblem
  | .numericalFailure => .NumericalFailure

/-- Modelled from the spec: the ConeProgramAdapter's unpacking step
(spec §4.4, §6, §7): a non-optimal status is a hard failure mapped to the
corresponding error; no partial, degraded or clipped vector is ever
returned. -/
def unpackSolution {n : ℕ} (res : SolverResult n) :
    Except SolveError (Fin n → ℝ) :=
  match res.status, res.x with
  | .optimal, some v => .ok v
  | .optimal, none => .error .NumericalFailure
  | .infeasible, _ => .error .InfeasibleProblem
  | .unbounded, _ => .error .UnboundedProblem
  | .numericalFailure, _ => .error .NumericalFailure

/-! ### The notebook's fixed constraint set and benchmark
(source cells 3 and 7) -/

/-- The inequality matrix of source cell 3:
`G = vstack((eye(I), -eye(I)))`. -/
def G_nb (n : ℕ) : Matrix (Fin n ⊕ Fin n) (Fin n) ℝ :=
  Matrix.of (Sum.elim (fun i j => if i = j then 1 else 0)
    (fun i j => if i = j then -1 else 0))

/-- The inequality right-hand side of source cell 3:
`h = hstack((0.25*ones(I), zeros(I)))`. -/
def h_nb (n : ℕ) : Fin n ⊕ Fin n → ℝ :=
  Sum.elim (fun _ => 0.25) (fun _ => 0)

/-- The notebook's fixed linear constraint set (`0 ≤ w ≤ 0.25`). -/
def C_nb (n : ℕ) : LinearConstraintSet (Fin n ⊕ Fin n) n :=
  ⟨G_nb n, h_nb n⟩

/-- The equal-weight benchmark of source cell 7: `e_bm = ones(I)/I`. -/
noncomputable def e_bm (n : ℕ) : Fin n → ℝ :=
  fun _ => 1 / n

/-! ### Algebra of the quadratic form -/

theorem quadForm_zero {n : ℕ} (S : Matrix (Fin n) (Fin n) ℝ) :
    quadForm S 0 = 0 := by
  simp [quadForm]

theorem quadForm_nonneg {n : ℕ} {S : Matrix (Fin n) (Fin n) ℝ}
    (hpd : ∀ x : Fin n → ℝ, x ≠ 0 → 0 < quadForm S x) (x : Fin n → ℝ) :
    0 ≤ quadForm S x := by
  rcases eq_or_ne x 0 with h | h
  · simp [h, quadForm_zero]
  · exact (hpd x h).le

theorem dot_mulVec_symm {n : ℕ} {S : Matrix (Fin n) (Fin n) ℝ}
    (hsym : Sᵀ = S) (v w : Fin n → ℝ) :
    v ⬝ᵥ S.mulVec w = w ⬝ᵥ S.mulVec v := by
  conv_lhs => rw [← hsym]
  rw [Matrix.mulVec_transpose, Matrix.dotProduct_comm,
    ← Matrix.dotProduct_mulVec]

theorem quadForm_add {n : ℕ} {S : Matrix (Fin n) (Fin n) ℝ}
    (hsym : Sᵀ = S) (v w : Fin n → ℝ) :
    quadForm S (v + w) =
      quadForm S v + 2 * (v ⬝ᵥ S.mulVec w) + quadForm S w := by
  have hc := dot_mulVec_symm hsym w v
  simp only [quadForm, Matrix.mulVec_add, Matrix.dotProduct_add,
    Matrix.add_dotProduct]
  linarith

theorem quadForm_sub {n : ℕ} {S : Matrix (Fin n) (Fin n) ℝ}
    (hsym : Sᵀ = S) (v w : Fin n → ℝ) :
    quadForm S (v - w) =
      quadForm S v - 2 * (v ⬝ᵥ S.mulVec w) + quadForm S w := by
  have hc := dot_mulVec_symm hsym w v
  simp only [quadForm, Matrix.mulVec_sub, Matrix.dotProduct_sub,
    Matrix.sub_dotProduct]
  linarith

theorem quadForm_smul {n : ℕ} (S : Matrix (Fin n) (Fin n) ℝ)
    (c : ℝ) (w : Fin n → ℝ) :
    quadForm S (c • w) = c ^ 2 * quadForm S w := by
  simp [quadForm, Matrix.mulVec_smul, Matrix.smul_dotProduct,
    Matrix.dotProduct_smul, smul_eq_mul]
  ring

theorem le_of_sqrt_le_sqrt {a b : ℝ} (ha : 0 ≤ a) (hb : 0 ≤ b)
    (h : Real.sqrt a ≤ Real.sqrt b) : a ≤ b := by
  nlinarith [Real.sq_sqrt ha, Real.sq_sqrt hb, Real.sqrt_nonneg a,
    Real.sqrt_nonneg b]

/-! ### The cone block computes the scaled volatility constraint -/

theorem coneMatrix_mulVec_zero {n : ℕ} {m : Type} [Fintype m]
    (L : Matrix (Fin n) m ℝ) (x : m → ℝ) :
    (coneMatrix L).mulVec x 0 = 0 := by
  simp [coneMatrix, Matrix.mulVec, Matrix.dotProduct]

theorem coneMatrix_mulVec_succ {n : ℕ} {m : Type} [Fintype m]
    (L : Matrix (Fin n) m ℝ) (x : m → ℝ) (k : Fin n) :
    (coneMatrix L).mulVec x k.succ = L.mulVec x k := by
  simp [coneMatrix, Matrix.mulVec, Matrix.dotProduct]

theorem dot_self_mulVec {n m : ℕ} (L : Matrix (Fin n) (Fin m) ℝ)
    (w : Fin m → ℝ) :
    (L.mulVec w) ⬝ᵥ (L.mulVec w) = w ⬝ᵥ (Lᵀ * L).mulVec w := by
  rw [← Matrix.mulVec_mulVec, Matrix.dotProduct_mulVec w,
    Matrix.vecMul_transpose]

theorem SOCSat_iff_vol_le {n : ℕ} {S L : Matrix (Fin n) (Fin n) ℝ}
    (hL : Lᵀ * L = (scalar ^ 2) • S) (ρ : ℝ) (w : Fin n → ℝ) :
    SOCSat (coneMatrix L) (hqVec (ρ * scalar)) w ↔ realizedVol S w ≤ ρ := by
  have hsum : ∑ k : Fin n,
      (hqVec (ρ * scalar) k.succ - (coneMatrix L).mulVec w k.succ) ^ 2 =
      scalar ^ 2 * quadForm S w := by
    have : ∀ k : Fin n,
        (hqVec (ρ * scalar) k.succ - (coneMatrix L).mulVec w k.succ) ^ 2 =
        L.mulVec w k * L.mulVec w k := by
      intro k
      rw [coneMatrix_mulVec_succ]
      simp [hqVec, Fin.succ_ne_zero]
      ring
    rw [Finset.sum_congr rfl fun k _ => this k]
    have h2 : ∑ k : Fin n, L.mulVec w k * L.mulVec w k =
        (L.mulVec w) ⬝ᵥ (L.mulVec w) := rfl
    rw [h2, dot_self_mulVec, hL]
    simp [quadForm, Matrix.smul_mulVec_assoc, Matrix.dotProduct_smul,
      smul_eq_mul]
  have hhead : hqVec (ρ * scalar) (0 : Fin (n + 1)) -
      (coneMatrix L).mulVec w 0 = ρ * scalar := by
    rw [coneMatrix_mulVec_zero]
    simp [hqVec]
  rw [SOCSat, hsum, hhead, Real.sqrt_mul (sq_nonneg scalar),
    Real.sqrt_sq scalar_pos.le, realizedVol]
  rw [mul_comm ρ scalar]
  exact mul_le_mul_left scalar_pos

theorem riskFeasible_iff_coneFeasible {ι : Type} {n : ℕ} (d : MomentsData n)
    (C : LinearConstraintSet ι n) {L : Matrix (Fin n) (Fin n) ℝ}
    (hL : Lᵀ * L = (scalar ^ 2) • d.cov) (ρ : ℝ) (w : Fin n → ℝ) :
    RiskFeasible C L ρ w ↔ ConeFeasible d C ρ w := by
  unfold RiskFeasible ConeFeasible
  rw [SOCSat_iff_vol_le hL]

theorem neg_scalar_dot {m : Type} [Fintype m] (μ w : m → ℝ) :
    (fun i => -(scalar * μ i)) ⬝ᵥ w = -(scalar * (μ ⬝ᵥ w)) := by
  simp [Matrix.dotProduct, Finset.mul_sum, mul_assoc]

theorem isRiskOptimal_iff_isConeOptimal {ι : Type} {n : ℕ} (d : MomentsData n)
    (C : LinearConstraintSet ι n) {L : Matrix (Fin n) (Fin n) ℝ}
    (hL : Lᵀ * L = (scalar ^ 2) • d.cov) (ρ : ℝ) (w : Fin n → ℝ) :
    IsRiskOptimal d C L ρ w ↔ IsConeOptimal d C ρ w := by
  unfold IsRiskOptimal IsConeOptimal
  rw [riskFeasible_iff_coneFeasible d C hL]
  refine and_congr Iff.rfl (forall_congr' fun v => ?_)
  rw [riskFeasible_iff_coneFeasible d C hL]
  refine imp_congr Iff.rfl ?_
  rw [neg_scalar_dot, neg_scalar_dot, neg_le_neg_iff,
    realizedReturn, realizedReturn]
  exact mul_le_mul_left scalar_pos

/-! ### Uniqueness of the variance minimizer and the refinement argument -/

theorem midpoint_quadFeasible {ι : Type} {n : ℕ} {d : MomentsData n}
    {C : LinearConstraintSet ι n} {r : ℝ} {v w : Fin n → ℝ}
    (hv : QuadFeasible d C r v) (hw : QuadFeasible d C r w) :
    QuadFeasible d C r ((2⁻¹ : ℝ) • (v + w)) := by
  obtain ⟨hvG, hvB, hvR⟩ := hv
  obtain ⟨hwG, hwB, hwR⟩ := hw
  refine ⟨fun s => ?_, ?_, ?_⟩
  · have := add_le_add (hvG s) (hwG s)
    simp only [Matrix.mulVec_smul, Matrix.mulVec_add, Pi.smul_apply,
      Pi.add_apply, smul_eq_mul]
    linarith
  · simp only [Pi.smul_apply, Pi.add_apply, smul_eq_mul]
    rw [← Finset.mul_sum, Finset.sum_add_distrib, hvB, hwB]
    norm_num
  · simp only [realizedReturn] at hvR hwR ⊢
    rw [Matrix.dotProduct_smul, Matrix.dotProduct_add, hvR, hwR, smul_eq_mul]
    ring

/-- With a symmetric positive-definite covariance, the variance minimizer
over the convex quadratic-feasible set is unique: any feasible point with
no larger variance equals it. -/
theorem quadOptimal_unique {ι : Type} {n : ℕ} {d : MomentsData n}
    {C : LinearConstraintSet ι n} {r : ℝ}
    (hsym : d.covᵀ = d.cov)
    (hpd : ∀ x : Fin n → ℝ, x ≠ 0 → 0 < quadForm d.cov x)
    {e w : Fin n → ℝ} (he : IsQuadOptimal d C r e)
    (hw : QuadFeasible d C r w)
    (hq : quadForm d.cov w ≤ quadForm d.cov e) : w = e := by
  by_contra hne
  have hdpos : 0 < quadForm d.cov (w - e) :=
    hpd (w - e) (sub_ne_zero.mpr hne)
  have hm : QuadFeasible d C r ((2⁻¹ : ℝ) • (w + e)) :=
    midpoint_quadFeasible hw he.1
  have hopt := he.2 _ hm
  have hmq : quadForm d.cov ((2⁻¹ : ℝ) • (w + e)) =
      (2⁻¹ : ℝ) ^ 2 * quadForm d.cov (w + e) := quadForm_smul _ _ _
  have hadd := quadForm_add hsym w e
  have hsub := quadForm_sub hsym w e
  nlinarith [hopt, hmq, hadd, hsub, hdpos, hq]

/-- The heart of claim C1 in its corrected form: if the return target is
efficient at risk level `realizedVol e` (no cone-feasible portfolio has
return above `r`), then any optimum of the target-risk problem equals the
quadratic solution exactly. -/
theorem coneOptimal_eq_quadOptimal {ι : Type} {n : ℕ} {d : MomentsData n}
    {C : LinearConstraintSet ι n} {r : ℝ}
    (hsym : d.covᵀ = d.cov)
    (hpd : ∀ x : Fin n → ℝ, x ≠ 0 → 0 < quadForm d.cov x)
    {e w : Fin n → ℝ} (he : IsQuadOptimal d C r e)
    (heff : ∀ v, ConeFeasible d C (realizedVol d.cov e) v →
      realizedReturn d.means v ≤ r)
    (hw : IsConeOptimal d C (realizedVol d.cov e) w) : w = e := by
  have heCone : ConeFeasible d C (realizedVol d.cov e) e :=
    ⟨he.1.1, he.1.2.1, le_refl _⟩
  have hge : realizedReturn d.means e ≤ realizedReturn d.means w :=
    hw.2 e heCone
  have hle : realizedReturn d.means w ≤ r := heff w hw.1
  have hretw : realizedReturn d.means w = r := by
    have := he.1.2.2
    linarith [hge, hle, this.ge, this.le]
  have hwQuad : QuadFeasible d C r w := ⟨hw.1.1, hw.1.2.1, hretw⟩
  have hqle : quadForm d.cov w ≤ quadForm d.cov e :=
    le_of_sqrt_le_sqrt (quadForm_nonneg hpd w) (quadForm_nonneg hpd e)
      hw.1.2.2
  exact quadOptimal_unique hsym hpd he hwQuad hqle

/-! ### Computing the assembled tracking-error blocks -/

theorem te_A_mulVec_inl {n : ℕ} (x : Fin n ⊕ Fin n → ℝ) :
    (te_A n).mulVec x (Sum.inl ()) = ∑ i, wPart x i := by
  simp [te_A, Matrix.mulVec, Matrix.dotProduct, Fintype.sum_sum_type,
    Matrix.fromBlocks, wPart]

theorem te_A_mulVec_inr {n : ℕ} (x : Fin n ⊕ Fin n → ℝ) (i : Fin n) :
    (te_A n).mulVec x (Sum.inr i) = wPart x i - tPart x i := by
  simp [te_A, Matrix.mulVec, Matrix.dotProduct, Fintype.sum_sum_type,
    Matrix.fromBlocks, Matrix.one_apply, wPart, tPart, sub_eq_add_neg]

theorem te_A_mulVec_iff {n : ℕ} (bm : Fin n → ℝ) (x : Fin n ⊕ Fin n → ℝ) :
    (te_A n).mulVec x = te_b bm ↔
      ((∑ i, wPart x i) = 1 ∧ ∀ i, wPart x i - tPart x i = bm i) := by
  constructor
  · intro h
    refine ⟨?_, fun i => ?_⟩
    · rw [← te_A_mulVec_inl x, h]
      rfl
    · rw [← te_A_mulVec_inr x i, h]
      rfl
  · rintro ⟨hB, hR⟩
    funext c
    cases c with
    | inl u =>
      cases u
      exact (te_A_mulVec_inl x).trans hB
    | inr i => exact (te_A_mulVec_inr x i).trans (hR i)

theorem extendG_mulVec {ι : Type} {n : ℕ} (C : LinearConstraintSet ι n)
    (x : Fin n ⊕ Fin n → ℝ) (r : ι) :
    (extendG C).mulVec x r = C.G.mulVec (wPart x) r := by
  simp [extendG, Matrix.mulVec, Matrix.dotProduct, Fintype.sum_sum_type,
    wPart]

theorem means2_dot {n : ℕ} (means : Fin n → ℝ) (x : Fin n ⊕ Fin n → ℝ) :
    means2 means ⬝ᵥ x = means ⬝ᵥ wPart x := by
  simp [means2, Matrix.dotProduct, Fintype.sum_sum_type, wPart]

theorem Gq2_0_mulVec {n : ℕ} (L : Matrix (Fin n) (Fin n) ℝ)
    (x : Fin n ⊕ Fin n → ℝ) :
    (Gq2_0 L).mulVec x = (coneMatrix L).mulVec (wPart x) := by
  funext i
  refine Fin.cases ?_ (fun k => ?_) i
  · rw [Gq2_0, coneMatrix_mulVec_zero, coneMatrix_mulVec_zero]
  · rw [Gq2_0, coneMatrix_mulVec_succ, coneMatrix_mulVec_succ]
    simp [Matrix.mulVec, Matrix.dotProduct, Fintype.sum_sum_type, wPart]

theorem Gq2_1_mulVec {n : ℕ} (L : Matrix (Fin n) (Fin n) ℝ)
    (x : Fin n ⊕ Fin n → ℝ) :
    (Gq2_1 L).mulVec x = (coneMatrix L).mulVec (tPart x) := by
  funext i
  refine Fin.cases ?_ (fun k => ?_) i
  · rw [Gq2_1, coneMatrix_mulVec_zero, coneMatrix_mulVec_zero]
  · rw [Gq2_1, coneMatrix_mulVec_succ, coneMatrix_mulVec_succ]
    simp [Matrix.mulVec, Matrix.dotProduct, Fintype.sum_sum_type, tPart]

theorem SOCSat_congr_mulVec {n : ℕ} {m m' : Type} [Fintype m] [Fintype m']
    {Gq : Matrix (Fin (n + 1)) m ℝ} {Gq' : Matrix (Fin (n + 1)) m' ℝ}
    {x : m → ℝ} {x' : m' → ℝ} (hq : Fin (n + 1) → ℝ)
    (h : Gq.mulVec x = Gq'.mulVec x') :
    SOCSat Gq hq x ↔ SOCSat Gq' hq x' := by
  unfold SOCSat
  rw [h]

/-- The assembled tracking-error program of cells 8–10 is, semantically,
the linear constraints on `w`, the budget, `t = w - bm`, and the two
volatility bounds. -/
theorem teFeasible_iff {ι : Type} {n : ℕ} (d : MomentsData n)
    (C : LinearConstraintSet ι n) {L : Matrix (Fin n) (Fin n) ℝ}
    (hL : Lᵀ * L = (scalar ^ 2) • d.cov) (ρ τ : ℝ) (bm : Fin n → ℝ)
    (x : Fin n ⊕ Fin n → ℝ) :
    TEFeasible C L ρ τ bm x ↔
      (LinFeasible C (wPart x) ∧ (∑ i, wPart x i) = 1 ∧
        (∀ i, wPart x i - tPart x i = bm i) ∧
        realizedVol d.cov (wPart x) ≤ ρ ∧
        realizedVol d.cov (tPart x) ≤ τ) := by
  unfold TEFeasible
  rw [te_A_mulVec_iff,
    SOCSat_congr_mulVec (hqVec (ρ * scalar)) (Gq2_0_mulVec L x),
    SOCSat_congr_mulVec (hqVec (τ * scalar)) (Gq2_1_mulVec L x),
    SOCSat_iff_vol_le hL, SOCSat_iff_vol_le hL]
  constructor
  · rintro ⟨h1, ⟨h2, h3⟩, h4, h5⟩
    exact ⟨fun r => (extendG_mulVec C x r) ▸ h1 r, h2, h3, h4, h5⟩
  · rintro ⟨h1, h2, h3, h4, h5⟩
    exact ⟨fun r => (extendG_mulVec C x r).symm ▸ h1 r, ⟨h2, h3⟩, h4, h5⟩

theorem te_objective {n : ℕ} (means : Fin n → ℝ) (x : Fin n ⊕ Fin n → ℝ) :
    (fun c => -(scalar * means2 means c)) ⬝ᵥ x =
      -(scalar * (means ⬝ᵥ wPart x)) := by
  rw [neg_scalar_dot, means2_dot]

/-- The heart of claim C2 in its corrected form: with tracking-error
target equal to the realized tracking error of the risk solution `wstar`,
the `w`-block of any tracking-error optimum is itself optimal for the
target-risk problem. -/
theorem teOptimal_wPart_coneOptimal {ι : Type} {n : ℕ} {d : MomentsData n}
    {C : LinearConstraintSet ι n} {L : Matrix (Fin n) (Fin n) ℝ}
    (hL : Lᵀ * L = (scalar ^ 2) • d.cov) {ρ : ℝ} {bm wstar : Fin n → ℝ}
    (hstar : IsConeOptimal d C ρ wstar)
    {x : Fin n ⊕ Fin n → ℝ}
    (hx : IsTEOptimal d C L ρ (trackingError d.cov wstar bm) bm x) :
    IsConeOptimal d C ρ (wPart x) := by
  obtain ⟨hxF, hxOpt⟩ := hx
  rw [teFeasible_iff d C hL] at hxF
  obtain ⟨hG, hB, _, hV, _⟩ := hxF
  have hx0 : TEFeasible C L ρ (trackingError d.cov wstar bm) bm
      (Sum.elim wstar (wstar - bm)) := by
    rw [teFeasible_iff d C hL]
    refine ⟨hstar.1.1, hstar.1.2.1, fun i => by simp [wPart, tPart], ?_, ?_⟩
    · exact hstar.1.2.2
    · exact le_of_eq rfl
  have hobj := hxOpt _ hx0
  rw [te_objective, te_objective] at hobj
  have hwge : d.means ⬝ᵥ wstar ≤ d.means ⬝ᵥ wPart x := by
    have hs := scalar_pos
    have : wPart (Sum.elim wstar (wstar - bm)) = wstar := rfl
    rw [this] at hobj
    nlinarith [hobj]
  refine ⟨⟨hG, hB, hV⟩, fun v hv => ?_⟩
  exact le_trans (hstar.2 v hv) hwge

/-- With a unique target-risk optimum, the tracking-error formulation run
at the exact realized tracking error reproduces it exactly. -/
theorem teOptimal_wPart_eq {ι : Type} {n : ℕ} {d : MomentsData n}
    {C : LinearConstraintSet ι n} {L : Matrix (Fin n) (Fin n) ℝ}
    (hL : Lᵀ * L = (scalar ^ 2) • d.cov) {ρ : ℝ} {bm wstar : Fin n → ℝ}
    (hstar : IsConeOptimal d C ρ wstar)
    (huniq : ∀ v, IsConeOptimal d C ρ v → v = wstar)
    {x : Fin n ⊕ Fin n → ℝ}
    (hx : IsTEOptimal d C L ρ (trackingError d.cov wstar bm) bm x) :
    wPart x = wstar :=
  huniq _ (teOptimal_wPart_coneOptimal hL hstar hx)

/-! ### The concrete two-asset scenario of spec §8 property 5 -/

/-- Means of the 2-asset scenario: `[0.08, 0.02]`. -/
def means7 : Fin 2 → ℝ := ![0.08, 0.02]

/-- Covariance of the 2-asset scenario: `[[0.04, 0], [0, 0.01]]`. -/
def cov7 : Matrix (Fin 2) (Fin 2) ℝ := Matrix.of ![![0.04, 0], ![0, 0.01]]

/-- The 2-asset scenario moments. -/
def d7 : MomentsData 2 := ⟨means7, cov7⟩

/-- Long-only constraints `w ≥ 0` (i.e. `-w ≤ 0`). -/
def Clo : LinearConstraintSet (Fin 2) 2 :=
  ⟨-(1 : Matrix (Fin 2) (Fin 2) ℝ), 0⟩

/-- The expected quadratic solution of the scenario: `[0.5, 0.5]`. -/
def e7 : Fin 2 → ℝ := ![0.5, 0.5]

/-- A factor `L = -cholesky(scalar² · cov7)`: `-diag(20, 10)`. -/
def L7 : Matrix (Fin 2) (Fin 2) ℝ := Matrix.of ![![-20, 0], ![0, -10]]

theorem linFeasible_Clo (w : Fin 2 → ℝ) :
    LinFeasible Clo w ↔ ∀ i, 0 ≤ w i := by
  simp [LinFeasible, Clo, Matrix.neg_mulVec, Matrix.one_mulVec, neg_nonpos]

theorem quadForm_cov7 (w : Fin 2 → ℝ) :
    quadForm cov7 w = 0.04 * w 0 ^ 2 + 0.01 * w 1 ^ 2 := by
  simp [quadForm, cov7, Matrix.mulVec, Matrix.dotProduct, Fin.sum_univ_two]
  ring

theorem return_d7 (w : Fin 2 → ℝ) :
    realizedReturn means7 w = 0.08 * w 0 + 0.02 * w 1 := by
  simp [realizedReturn, means7, Matrix.dotProduct, Fin.sum_univ_two]

theorem cov7_symm : cov7ᵀ = cov7 := by
  ext i j
  fin_cases i <;> fin_cases j <;> simp [cov7]

theorem cov7_pd : ∀ x : Fin 2 → ℝ, x ≠ 0 → 0 < quadForm cov7 x := by
  intro x hx
  have h : x 0 ≠ 0 ∨ x 1 ≠ 0 := by
    by_contra h
    push_neg at h
    exact hx (funext fun i => by fin_cases i <;> simp [h.1, h.2])
  rw [quadForm_cov7]
  rcases h with h | h
  · nlinarith [pow_two_pos_of_ne_zero h, sq_nonneg (x 1)]
  · nlinarith [pow_two_pos_of_ne_zero h, sq_nonneg (x 0)]

theorem hL7 : L7ᵀ * L7 = (scalar ^ 2) • cov7 := by
  ext i j
  fin_cases i <;> fin_cases j <;>
    simp [L7, cov7, scalar, Matrix.mul_apply, Matrix.transpose_apply,
      Matrix.vecHead, Matrix.vecTail, Fin.sum_univ_two] <;> norm_num

theorem quadFeasible_d7_iff (w : Fin 2 → ℝ) :
    QuadFeasible d7 Clo 0.05 w ↔ w = e7 := by
  constructor
  · rintro ⟨hG, hB, hR⟩
    rw [Fin.sum_univ_two] at hB
    rw [show d7.means = means7 from rfl, return_d7] at hR
    have h0 : w 0 = 0.5 := by linarith
    have h1 : w 1 = 0.5 := by linarith
    funext i
    fin_cases i <;> simp [e7, h0, h1]
  · rintro rfl
    refine ⟨(linFeasible_Clo e7).mpr fun i => by fin_cases i <;> norm_num [e7],
      ?_, ?_⟩
    · rw [Fin.sum_univ_two]
      norm_num [e7]
    · rw [show d7.means = means7 from rfl, return_d7]
      norm_num [e7]

theorem quadOptimal_d7_e7 : IsQuadOptimal d7 Clo 0.05 e7 := by
  refine ⟨(quadFeasible_d7_iff e7).mpr rfl, fun v hv => ?_⟩
  rw [(quadFeasible_d7_iff v).mp hv]

theorem quadForm_cov7_e7 : quadForm cov7 e7 = 0.0125 := by
  rw [quadForm_cov7]
  norm_num [e7]

theorem vol_d7_e7 : realizedVol cov7 e7 = Real.sqrt 0.0125 := by
  rw [realizedVol, quadForm_cov7_e7]

/-- Any portfolio feasible for the scenario's risk-target cone program has
expected return at most `0.05`. -/
theorem cone_d7_return_le (v : Fin 2 → ℝ)
    (hv : ConeFeasible d7 Clo (realizedVol cov7 e7) v) :
    realizedReturn d7.means v ≤ 0.05 := by
  obtain ⟨hG, hB, hV⟩ := hv
  rw [show d7.cov = cov7 from rfl] at hV
  rw [vol_d7_e7] at hV
  have hq : quadForm cov7 v ≤ 0.0125 := by
    refine le_of_sqrt_le_sqrt ?_ (by norm_num) hV
    rw [quadForm_cov7]
    positivity
  rw [quadForm_cov7] at hq
  rw [Fin.sum_univ_two] at hB
  have h0 : 0 ≤ v 0 := (linFeasible_Clo v).mp hG 0
  have h1 : 0 ≤ v 1 := (linFeasible_Clo v).mp hG 1
  rw [show d7.means = means7 from rfl, return_d7]
  nlinarith [sq_nonneg (v 0 - 0.5)]

theorem cone_d7_opt_e7 : IsConeOptimal d7 Clo (realizedVol cov7 e7) e7 := by
  refine ⟨⟨(linFeasible_Clo e7).mpr fun i => by fin_cases i <;> norm_num [e7],
    by rw [Fin.sum_univ_two]; norm_num [e7], le_refl _⟩, fun v hv => ?_⟩
  have h := cone_d7_return_le v hv
  have he : realizedReturn d7.means e7 = 0.05 := by
    rw [show d7.means = means7 from rfl, return_d7]
    norm_num [e7]
  rw [he]
  exact h

theorem cone_d7_uniq (v : Fin 2 → ℝ)
    (hv : IsConeOptimal d7 Clo (realizedVol cov7 e7) v) : v = e7 := by
  have hle := cone_d7_return_le v hv.1
  have hge := hv.2 e7 cone_d7_opt_e7.1
  rw [show d7.means = means7 from rfl, return_d7] at hle hge
  rw [return_d7 v] at hge
  norm_num [e7] at hge
  obtain ⟨_, hB, _⟩ := hv.1
  rw [Fin.sum_univ_two] at hB
  have h0 : v 0 = 0.5 := by linarith
  have h1 : v 1 = 0.5 := by linarith
  funext i
  fin_cases i <;> simp [e7, h0, h1]

/-! ### A counterexample instance for claim C1: an inefficient return
target.  Same moments `d7` and long-only constraints, return target
`0.03`, which lies below the minimum-variance portfolio's return. -/

/-- The unique quadratic-feasible point at return target `0.03`. -/
noncomputable def ec1 : Fin 2 → ℝ := ![1 / 6, 5 / 6]

/-- The unique optimum of the risk-target cone problem at the realized
volatility of `ec1`: it has strictly higher return than `0.03`. -/
noncomputable def wc1 : Fin 2 → ℝ := ![7 / 30, 23 / 30]

theorem quadFeasible_c1_iff (w : Fin 2 → ℝ) :
    QuadFeasible d7 Clo 0.03 w ↔ w = ec1 := by
  constructor
  · rintro ⟨hG, hB, hR⟩
    rw [Fin.sum_univ_two] at hB
    rw [show d7.means = means7 from rfl, return_d7] at hR
    have h0 : w 0 = 1 / 6 := by linarith
    have h1 : w 1 = 5 / 6 := by linarith
    funext i
    fin_cases i <;> simp [ec1, h0, h1]
  · rintro rfl
    refine ⟨(linFeasible_Clo ec1).mpr fun i => by fin_cases i <;>
      norm_num [ec1], ?_, ?_⟩
    · rw [Fin.sum_univ_two]
      norm_num [ec1]
    · rw [show d7.means = means7 from rfl, return_d7]
      norm_num [ec1]

theorem quadOptimal_c1 : IsQuadOptimal d7 Clo 0.03 ec1 := by
  refine ⟨(quadFeasible_c1_iff ec1).mpr rfl, fun v hv => ?_⟩
  rw [(quadFeasible_c1_iff v).mp hv]

theorem quadForm_cov7_ec1 : quadForm cov7 ec1 = 29 / 3600 := by
  rw [quadForm_cov7]
  norm_num [ec1]

theorem quadForm_cov7_wc1 : quadForm cov7 wc1 = 29 / 3600 := by
  rw [quadForm_cov7]
  norm_num [wc1]

/-- Any portfolio feasible for the cone problem at risk level
`realizedVol cov7 ec1` has first weight at most `7/30`, hence return at
most `0.034`. -/
theorem cone_c1_return_le (v : Fin 2 → ℝ)
    (hv : ConeFeasible d7 Clo (realizedVol cov7 ec1) v) :
    realizedReturn d7.means v ≤ 0.034 := by
  obtain ⟨hG, hB, hV⟩ := hv
  rw [show d7.cov = cov7 from rfl] at hV
  simp only [realizedVol] at hV
  rw [quadForm_cov7_ec1] at hV
  have hq : quadForm cov7 v ≤ 29 / 3600 := by
    refine le_of_sqrt_le_sqrt ?_ (by norm_num) hV
    rw [quadForm_cov7]
    positivity
  rw [quadForm_cov7] at hq
  rw [Fin.sum_univ_two] at hB
  have h0 : 0 ≤ v 0 := (linFeasible_Clo v).mp hG 0
  have h1 : 0 ≤ v 1 := (linFeasible_Clo v).mp hG 1
  rw [show d7.means = means7 from rfl, return_d7]
  nlinarith [sq_nonneg (v 0 - 7 / 30)]

theorem cone_c1_opt_wc1 :
    IsConeOptimal d7 Clo (realizedVol cov7 ec1) wc1 := by
  refine ⟨⟨(linFeasible_Clo wc1).mpr fun i => by fin_cases i <;>
    norm_num [wc1], by rw [Fin.sum_univ_two]; norm_num [wc1], ?_⟩,
    fun v hv => ?_⟩
  · rw [show d7.cov = cov7 from rfl, realizedVol, realizedVol,
      quadForm_cov7_ec1, quadForm_cov7_wc1]
  · have h := cone_c1_return_le v hv
    have he : realizedReturn d7.means wc1 = 0.034 := by
      rw [show d7.means = means7 from rfl, return_d7]
      norm_num [wc1]
    rw [he]
    exact h

theorem cone_c1_uniq (v : Fin 2 → ℝ)
    (hv : IsConeOptimal d7 Clo (realizedVol cov7 ec1) v) : v = wc1 := by
  have hle := cone_c1_return_le v hv.1
  have hge := hv.2 wc1 cone_c1_opt_wc1.1
  rw [show d7.means = means7 from rfl, return_d7] at hle hge
  rw [return_d7 v] at hge
  norm_num [wc1] at hge
  obtain ⟨_, hB, _⟩ := hv.1
  rw [Fin.sum_univ_two] at hB
  have h0 : v 0 = 7 / 30 := by linarith
  have h1 : v 1 = 23 / 30 := by linarith
  funext i
  fin_cases i <;> simp [wc1, h0, h1]

/-! ### A counterexample instance for claim C2: equal means make the
target-risk optimum non-unique, so the tracking-error solve can return a
different portfolio even at the exact realized tracking-error target. -/

/-- Means of the degenerate instance: `[0.05, 0.05]`. -/
def meansD : Fin 2 → ℝ := ![0.05, 0.05]

/-- Covariance of the degenerate instance: `0.01 · Identity`. -/
def covD : Matrix (Fin 2) (Fin 2) ℝ := Matrix.of ![![0.01, 0], ![0, 0.01]]

/-- The degenerate instance moments. -/
def dD : MomentsData 2 := ⟨meansD, covD⟩

/-- A factor `L = -cholesky(scalar² · covD)`: `-diag(10, 10)`. -/
def LD : Matrix (Fin 2) (Fin 2) ℝ := Matrix.of ![![-10, 0], ![0, -10]]

/-- The benchmark of the degenerate instance. -/
def bmD : Fin 2 → ℝ := ![0, 1]

/-- One optimum of the degenerate target-risk problem. -/
def wstarD : Fin 2 → ℝ := ![0.5, 0.5]

/-- A different optimum of the tracking-error problem at the exact
realized tracking error of `wstarD`: `w`-block `[0, 1]`, `t`-block `0`. -/
def xD : Fin 2 ⊕ Fin 2 → ℝ := Sum.elim ![0, 1] ![0, 0]

theorem hLD : LDᵀ * LD = (scalar ^ 2) • covD := by
  ext i j
  fin_cases i <;> fin_cases j <;>
    simp [LD, covD, scalar, Matrix.mul_apply, Matrix.transpose_apply,
      Matrix.vecHead, Matrix.vecTail, Fin.sum_univ_two] <;> norm_num

theorem quadForm_covD (w : Fin 2 → ℝ) :
    quadForm covD w = 0.01 * w 0 ^ 2 + 0.01 * w 1 ^ 2 := by
  simp [quadForm, covD, Matrix.mulVec, Matrix.dotProduct, Fin.sum_univ_two]
  ring

theorem return_dD (w : Fin 2 → ℝ) :
    realizedReturn meansD w = 0.05 * w 0 + 0.05 * w 1 := by
  simp [realizedReturn, meansD, Matrix.dotProduct, Fin.sum_univ_two]

/-- Every fully-invested portfolio of the degenerate instance has the
same expected return `0.05`. -/
theorem return_dD_of_budget (w : Fin 2 → ℝ) (hB : (∑ i, w i) = 1) :
    realizedReturn meansD w = 0.05 := by
  rw [return_dD]
  rw [Fin.sum_univ_two] at hB
  linarith

theorem coneOptimal_dD_wstarD : IsConeOptimal dD Clo 0.2 wstarD := by
  constructor
  · refine ⟨(linFeasible_Clo wstarD).mpr fun i => by fin_cases i <;>
      norm_num [wstarD], by rw [Fin.sum_univ_two]; norm_num [wstarD], ?_⟩
    rw [show dD.cov = covD from rfl, realizedVol]
    rw [show (0.2 : ℝ) = Real.sqrt 0.04 by
      rw [show (0.04 : ℝ) = 0.2 ^ 2 by norm_num, Real.sqrt_sq]; norm_num]
    apply Real.sqrt_le_sqrt
    rw [quadForm_covD]
    norm_num [wstarD]
  · intro v hv
    rw [show dD.means = meansD from rfl,
      return_dD_of_budget v hv.2.1, return_dD_of_budget wstarD
        (by rw [Fin.sum_univ_two]; norm_num [wstarD])]

theorem teD_target : trackingError covD wstarD bmD = Real.sqrt 0.005 := by
  rw [trackingError, realizedVol, quadForm_covD]
  norm_num [wstarD, bmD]

theorem teOptimal_dD_xD :
    IsTEOptimal dD Clo LD 0.2 (trackingError dD.cov wstarD bmD) bmD xD := by
  have hcov : dD.cov = covD := rfl
  constructor
  · rw [teFeasible_iff dD Clo hLD]
    refine ⟨(linFeasible_Clo _).mpr fun i => by fin_cases i <;>
      norm_num [xD, wPart], ?_, fun i => by fin_cases i <;>
      norm_num [xD, wPart, tPart, bmD], ?_, ?_⟩
    · rw [Fin.sum_univ_two]
      norm_num [xD, wPart]
    · rw [hcov, realizedVol]
      rw [show (0.2 : ℝ) = Real.sqrt 0.04 by
        rw [show (0.04 : ℝ) = 0.2 ^ 2 by norm_num, Real.sqrt_sq]; norm_num]
      apply Real.sqrt_le_sqrt
      rw [quadForm_covD]
      norm_num [xD, wPart]
    · rw [hcov, teD_target, realizedVol]
      apply Real.sqrt_le_sqrt
      rw [quadForm_covD]
      norm_num [xD, tPart]
  · intro y hy
    rw [teFeasible_iff dD Clo hLD] at hy
    rw [te_objective, te_objective]
    have h1 : dD.means ⬝ᵥ wPart y = 0.05 := return_dD_of_budget _ hy.2.1
    have h2 : dD.means ⬝ᵥ wPart xD = 0.05 :=
      return_dD_of_budget _ (by rw [Fin.sum_univ_two]; norm_num [xD, wPart])
    rw [show (dD.means ⬝ᵥ wPart y : ℝ) = realizedReturn dD.means (wPart y)
      from rfl] at h1
    rw [show (dD.means ⬝ᵥ wPart xD : ℝ) = realizedReturn dD.means (wPart xD)
      from rfl] at h2
    simp only [realizedReturn] at h1 h2
    rw [h1, h2]

/-! ### Further concrete helper facts for the witnesses -/

/-- In the 2-asset scenario with benchmark `e7`, the doubled vector
`[e7; 0]` is optimal for the tracking-error formulation at the exact
realized tracking error of `e7`. -/
theorem teOptimal_d7_x7 :
    IsTEOptimal d7 Clo L7 (realizedVol cov7 e7) (trackingError d7.cov e7 e7)
      e7 (Sum.elim e7 0) := by
  constructor
  · rw [teFeasible_iff d7 Clo hL7]
    refine ⟨(linFeasible_Clo _).mpr fun i => by fin_cases i <;>
      norm_num [wPart, e7], ?_, fun i => by simp [wPart, tPart], le_refl _, ?_⟩
    · rw [Fin.sum_univ_two]
      norm_num [wPart, e7]
    · have ht : tPart (Sum.elim e7 (0 : Fin 2 → ℝ)) = e7 - e7 := by
        funext i
        simp [tPart]
      rw [ht]
      exact le_refl _
  · intro y hy
    rw [teFeasible_iff d7 Clo hL7] at hy
    rw [te_objective, te_objective]
    have hret : realizedReturn d7.means (wPart y) ≤ 0.05 :=
      cone_d7_return_le (wPart y) ⟨hy.1, hy.2.1, hy.2.2.2.1⟩
    have he : d7.means ⬝ᵥ wPart (Sum.elim e7 (0 : Fin 2 → ℝ)) = 0.05 := by
      rw [show (d7.means ⬝ᵥ wPart (Sum.elim e7 (0 : Fin 2 → ℝ)) : ℝ) =
        realizedReturn means7 e7 from rfl, return_d7]
      norm_num [e7]
    rw [he]
    have hs := scalar_pos
    simp only [realizedReturn] at hret
    nlinarith [hret]

/-- The minimum-variance portfolio of the 2-asset scenario. -/
def wmv : Fin 2 → ℝ := ![0.2, 0.8]

theorem wmv_minimal (v : Fin 2 → ℝ) (_hG : LinFeasible Clo v)
    (hB : (∑ i, v i) = 1) :
    realizedVol cov7 wmv ≤ realizedVol cov7 v := by
  apply Real.sqrt_le_sqrt
  rw [quadForm_cov7, quadForm_cov7]
  rw [Fin.sum_univ_two] at hB
  norm_num [wmv]
  nlinarith [sq_nonneg (v 0 - 0.2)]

theorem wmv_vol_gt : (0.08 : ℝ) < realizedVol cov7 wmv := by
  rw [realizedVol, quadForm_cov7]
  have hq : (0.04 * wmv 0 ^ 2 + 0.01 * wmv 1 ^ 2 : ℝ) = 0.008 := by
    norm_num [wmv]
  rw [hq, Real.lt_sqrt (by norm_num)]
  norm_num

/-! ### The notebook constraint set (claim C10) -/

theorem linFeasible_C_nb {n : ℕ} (w : Fin n → ℝ) :
    LinFeasible (C_nb n) w ↔ ∀ i, w i ≤ 0.25 ∧ 0 ≤ w i := by
  constructor
  · intro h i
    have h1 := h (Sum.inl i)
    have h2 := h (Sum.inr i)
    simp [C_nb, G_nb, h_nb, Matrix.mulVec, Matrix.dotProduct, ite_mul,
      Finset.sum_ite_eq] at h1 h2
    exact ⟨h1, by linarith⟩
  · intro h r
    cases r with
    | inl i =>
      simp [C_nb, G_nb, h_nb, Matrix.mulVec, Matrix.dotProduct, ite_mul,
        Finset.sum_ite_eq]
      exact (h i).1
    | inr i =>
      simp [C_nb, G_nb, h_nb, Matrix.mulVec, Matrix.dotProduct, ite_mul,
        Finset.sum_ite_eq]
      exact (h i).2

theorem nb_feasible_imp {n : ℕ} (w : Fin n → ℝ)
    (hG : LinFeasible (C_nb n) w) (hB : (∑ i, w i) = 1) : 4 ≤ n := by
  have hle : (1 : ℝ) ≤ n * 0.25 := by
    rw [← hB]
    calc ∑ i, w i ≤ ∑ _i : Fin n, (0.25 : ℝ) :=
          Finset.sum_le_sum fun i _ => ((linFeasible_C_nb w).mp hG i).1
      _ = n * 0.25 := by
          rw [Finset.sum_const, Finset.card_univ, Fintype.card_fin,
            nsmul_eq_mul]
  have : (4 : ℝ) ≤ n := by linarith
  exact_mod_cast this

theorem e_bm_feasible {n : ℕ} (h : 4 ≤ n) :
    LinFeasible (C_nb n) (e_bm n) ∧ (∑ i, e_bm n i) = 1 := by
  have hn : (0 : ℝ) < n := by
    have : (4 : ℝ) ≤ n := by exact_mod_cast h
    linarith
  constructor
  · rw [linFeasible_C_nb]
    intro i
    constructor
    · rw [e_bm]
      rw [show (0.25 : ℝ) = 1 / 4 by norm_num]
      apply one_div_le_one_div_of_le (by norm_num)
      exact_mod_cast h
    · rw [e_bm]
      positivity
  · rw [show (∑ i, e_bm n i) = ∑ _i : Fin n, (1 / n : ℝ) from rfl,
      Finset.sum_const, Finset.card_univ, Fintype.card_fin, nsmul_eq_mul,
      mul_one_div, div_self (ne_of_gt hn)]

/-! ### The claims -/

/-- Claim C1, counterexample: at the inefficient return target `0.03` on
the scenario moments, the quadratic solution is `ec1 = [1/6, 5/6]`, the
risk-cone formulation at `ec1`'s realized volatility is optimized by
`wc1 = [7/30, 23/30]`, and the weight difference is `1/15 ≥ 1e-6` — so
the claim as stated (for every achievable return target) is false. -/
theorem claim_C1_counterexample :
    IsQuadOptimal d7 Clo 0.03 ec1 ∧
    IsRiskOptimal d7 Clo L7 (realizedVol d7.cov ec1) wc1 ∧
    1e-6 ≤ |wc1 0 - ec1 0| := by
  refine ⟨quadOptimal_c1,
    (isRiskOptimal_iff_isConeOptimal d7 Clo hL7 _ wc1).mpr cone_c1_opt_wc1, ?_⟩
  have h : wc1 0 - ec1 0 = 1 / 15 := by norm_num [wc1, ec1]
  rw [h, abs_of_pos (by norm_num)]
  norm_num

/-- Claim C1, amended: for every feasible problem with symmetric
positive-definite covariance, every quadratic solution `e` at a return
target `r` that is EFFICIENT at risk level `realizedVol e` (no feasible
portfolio within that volatility has return above `r`), any optimum `w`
of the risk-cone formulation with risk target `realizedVol e` equals `e`,
so the maximum absolute weight difference is below `1e-6`. -/
theorem claim_C1_amended {ι : Type} {n : ℕ} (d : MomentsData n)
    (C : LinearConstraintSet ι n) (L : Matrix (Fin n) (Fin n) ℝ) (r : ℝ)
    (e w : Fin n → ℝ)
    (hsym : d.covᵀ = d.cov)
    (hpd : ∀ x : Fin n → ℝ, x ≠ 0 → 0 < quadForm d.cov x)
    (hL : Lᵀ * L = (scalar ^ 2) • d.cov)
    (he : IsQuadOptimal d C r e)
    (heff : ∀ v, ConeFeasible d C (realizedVol d.cov e) v →
      realizedReturn d.means v ≤ r)
    (hw : IsRiskOptimal d C L (realizedVol d.cov e) w) :
    w = e ∧ ∀ i, |w i - e i| < 1e-6 := by
  have hclean := (isRiskOptimal_iff_isConeOptimal d C hL _ w).mp hw
  have heq := coneOptimal_eq_quadOptimal hsym hpd he heff hclean
  refine ⟨heq, fun i => ?_⟩
  rw [heq, sub_self, abs_zero]
  norm_num

/-- Claim C1, witness: the amended theorem applies to the concrete
two-asset scenario at return target `0.05`, where the hypotheses hold
and the risk-cone optimum is `e7` itself. -/
theorem claim_C1_witness :
    IsQuadOptimal d7 Clo 0.05 e7 ∧
    IsRiskOptimal d7 Clo L7 (realizedVol d7.cov e7) e7 ∧ e7 = e7 := by
  have hrisk : IsRiskOptimal d7 Clo L7 (realizedVol d7.cov e7) e7 :=
    (isRiskOptimal_iff_isConeOptimal d7 Clo hL7 _ e7).mpr cone_d7_opt_e7
  exact ⟨quadOptimal_d7_e7, hrisk,
    (claim_C1_amended d7 Clo L7 0.05 e7 e7 cov7_symm cov7_pd hL7
      quadOptimal_d7_e7 cone_d7_return_le hrisk).1⟩

/-- Claim C2, counterexample: on the degenerate instance with equal
means, `wstarD = [0.5, 0.5]` is a risk-cone optimum at risk target `0.2`,
yet `xD = [[0,1]; [0,0]]` is optimal for the tracking-error formulation
at the exact realized tracking error of `wstarD` against benchmark
`[0, 1]`, and its `w`-block differs from `wstarD` by `0.5 ≥ 1e-6` — so
the claim as stated (for every benchmark and any returned solution) is
false. -/
theorem claim_C2_counterexample :
    IsRiskOptimal dD Clo LD 0.2 wstarD ∧
    IsTEOptimal dD Clo LD 0.2 (trackingError dD.cov wstarD bmD) bmD xD ∧
    1e-6 ≤ |wPart xD 0 - wstarD 0| := by
  refine ⟨(isRiskOptimal_iff_isConeOptimal dD Clo hLD _ wstarD).mpr
    coneOptimal_dD_wstarD, teOptimal_dD_xD, ?_⟩
  have h : wPart xD 0 - wstarD 0 = -(1 / 2) := by
    norm_num [xD, wPart, wstarD]
  rw [h, abs_neg, abs_of_pos (by norm_num)]
  norm_num

/-- Claim C2, amended: when the risk-cone problem's optimum `wstar` is
UNIQUE, the tracking-error formulation run with the same risk target and
tracking-error target equal to the exact realized tracking error of
`wstar` against any benchmark has a `w`-block equal to `wstar`, so the
first `I` entries differ by at most `1e-6`. -/
theorem claim_C2_amended {ι : Type} {n : ℕ} (d : MomentsData n)
    (C : LinearConstraintSet ι n) (L : Matrix (Fin n) (Fin n) ℝ) (ρ : ℝ)
    (bm wstar : Fin n → ℝ) (x : Fin n ⊕ Fin n → ℝ)
    (hL : Lᵀ * L = (scalar ^ 2) • d.cov)
    (hstar : IsRiskOptimal d C L ρ wstar)
    (huniq : ∀ v, IsRiskOptimal d C L ρ v → v = wstar)
    (hx : IsTEOptimal d C L ρ (trackingError d.cov wstar bm) bm x) :
    wPart x = wstar ∧ ∀ i, |wPart x i - wstar i| ≤ 1e-6 := by
  have heq := teOptimal_wPart_eq hL
    ((isRiskOptimal_iff_isConeOptimal d C hL ρ wstar).mp hstar)
    (fun v hv => huniq v
      ((isRiskOptimal_iff_isConeOptimal d C hL ρ v).mpr hv)) hx
  refine ⟨heq, fun i => ?_⟩
  rw [heq, sub_self, abs_zero]
  norm_num

/-- Claim C2, witness: the amended theorem applies to the concrete
two-asset scenario, where the risk-cone optimum `e7` is unique and the
tracking-error solve at benchmark `e7` reproduces it. -/
theorem claim_C2_witness :
    IsRiskOptimal d7 Clo L7 (realizedVol cov7 e7) e7 ∧
    IsTEOptimal d7 Clo L7 (realizedVol cov7 e7)
      (trackingError d7.cov e7 e7) e7 (Sum.elim e7 0) ∧
    wPart (Sum.elim e7 (0 : Fin 2 → ℝ)) = e7 := by
  have hrisk : IsRiskOptimal d7 Clo L7 (realizedVol cov7 e7) e7 :=
    (isRiskOptimal_iff_isConeOptimal d7 Clo hL7 _ e7).mpr cone_d7_opt_e7
  have huniq : ∀ v, IsRiskOptimal d7 Clo L7 (realizedVol cov7 e7) v →
      v = e7 := fun v hv =>
    cone_d7_uniq v ((isRiskOptimal_iff_isConeOptimal d7 Clo hL7 _ v).mp hv)
  exact ⟨hrisk, teOptimal_d7_x7,
    (claim_C2_amended d7 Clo L7 (realizedVol cov7 e7) e7 e7 (Sum.elim e7 0)
      hL7 hrisk huniq teOptimal_d7_x7).1⟩

/-- Claim C3: with `scalar = 100` and a symmetric positive-definite
covariance `S`, the factor `L = -U` for any Cholesky factor `U` of
`scalar²·S` satisfies `Lᵀ·L = scalar²·S`, and the scaled cone constraint
`‖L·w‖₂ ≤ ρ·scalar` (as assembled, with `L` in rows `1..I`) holds iff
`√(wᵗ·S·w) ≤ ρ`. -/
theorem claim_C3 {n : ℕ} (S U : Matrix (Fin n) (Fin n) ℝ) (ρ : ℝ)
    (w : Fin n → ℝ) (_hsym : Sᵀ = S)
    (_hpd : ∀ x : Fin n → ℝ, x ≠ 0 → 0 < quadForm S x)
    (hU : Uᵀ * U = (scalar ^ 2) • S) (_hρ : 0 < ρ) :
    (-U)ᵀ * (-U) = (scalar ^ 2) • S ∧
      (SOCSat (coneMatrix (-U)) (hqVec (ρ * scalar)) w ↔
        realizedVol S w ≤ ρ) := by
  have hL : (-U)ᵀ * (-U) = (scalar ^ 2) • S := by
    rw [Matrix.transpose_neg, Matrix.neg_mul, Matrix.mul_neg, neg_neg, hU]
  exact ⟨hL, SOCSat_iff_vol_le hL ρ w⟩

/-- Claim C3, witness: the theorem applies to the scenario covariance
`cov7` with Cholesky factor `diag(20, 10)` and risk target `1`. -/
theorem claim_C3_witness :
    ((-(-L7))ᵀ * (-(-L7)) = (scalar ^ 2) • cov7 ∧
      (SOCSat (coneMatrix (-(-L7))) (hqVec (1 * scalar)) e7 ↔
        realizedVol cov7 e7 ≤ 1)) :=
  claim_C3 cov7 (-L7) 1 e7 cov7_symm cov7_pd
    (by rw [Matrix.transpose_neg, Matrix.neg_mul, Matrix.mul_neg, neg_neg]
        exact hL7) one_pos

/-- Claim C4: the assembled equality block `A·x = b` of the
tracking-error formulation holds iff the `w`-block sums to `1` and
`w - t` equals the benchmark. -/
theorem claim_C4 {n : ℕ} (bm : Fin n → ℝ) (x : Fin n ⊕ Fin n → ℝ) :
    (te_A n).mulVec x = te_b bm ↔
      ((∑ i, wPart x i) = 1 ∧ ∀ i, wPart x i - tPart x i = bm i) :=
  te_A_mulVec_iff bm x

/-- Claim C5: the extended objective satisfies
`means2ᵗ·x = meansᵗ·w`; the first cone matrix holds `L` in the
`w`-columns and zeros in the `t`-columns (rows `1..I`), the second the
reverse, so the first cone block is a function of `w` only and the
second of `t` only. -/
theorem claim_C5 {n : ℕ} (μ : Fin n → ℝ) (L : Matrix (Fin n) (Fin n) ℝ)
    (x : Fin n ⊕ Fin n → ℝ) (k j : Fin n) :
    means2 μ ⬝ᵥ x = μ ⬝ᵥ wPart x ∧
    Gq2_0 L k.succ (Sum.inl j) = L k j ∧
    Gq2_0 L k.succ (Sum.inr j) = 0 ∧
    Gq2_1 L k.succ (Sum.inl j) = 0 ∧
    Gq2_1 L k.succ (Sum.inr j) = L k j ∧
    (Gq2_0 L).mulVec x = (coneMatrix L).mulVec (wPart x) ∧
    (Gq2_1 L).mulVec x = (coneMatrix L).mulVec (tPart x) := by
  refine ⟨means2_dot μ x, ?_, ?_, ?_, ?_, Gq2_0_mulVec L x,
    Gq2_1_mulVec L x⟩ <;> simp [Gq2_0, Gq2_1, coneMatrix]

/-- Claim C6: a non-optimal solver status is a hard failure — the
unpacking step returns the corresponding error and never a weight
vector — and a risk target below the minimum-variance portfolio's
volatility makes the cone-feasible set empty (so a contract-abiding
solver reports infeasible, surfaced as `InfeasibleProblem`). -/
theorem claim_C6 :
    (∀ (n : ℕ) (res : SolverResult n),
      res.status ≠ SolverStatus.optimal →
      unpackSolution res = Except.error (statusError res.status) ∧
      ∀ v, unpackSolution res ≠ Except.ok v) ∧
    (∀ (ι : Type) (n : ℕ) (d : MomentsData n)
      (C : LinearConstraintSet ι n) (ρ : ℝ) (wmin : Fin n → ℝ),
      LinFeasible C wmin → (∑ i, wmin i) = 1 →
      (∀ v, LinFeasible C v → (∑ i, v i) = 1 →
        realizedVol d.cov wmin ≤ realizedVol d.cov v) →
      ρ < realizedVol d.cov wmin →
      ¬∃ w, ConeFeasible d C ρ w) := by
  constructor
  · rintro n ⟨st, xv⟩ hne
    cases st with
    | optimal => exact absurd rfl hne
    | infeasible =>
      exact ⟨rfl, fun v h => by simp [unpackSolution] at h⟩
    | unbounded =>
      exact ⟨rfl, fun v h => by simp [unpackSolution] at h⟩
    | numericalFailure =>
      exact ⟨rfl, fun v h => by simp [unpackSolution] at h⟩
  · rintro ι n d C ρ wmin hG hB hmin hlt ⟨w, hwG, hwB, hwV⟩
    have := hmin w hwG hwB
    linarith

/-- Claim C6, witness: an infeasible status maps to `InfeasibleProblem`,
and risk target `0.08` lies below the scenario's minimum-variance
volatility `√0.008`, so its cone-feasible set is empty. -/
theorem claim_C6_witness :
    unpackSolution (⟨SolverStatus.infeasible, none⟩ : SolverResult 2) =
      Except.error SolveError.InfeasibleProblem ∧
    ¬∃ w, ConeFeasible d7 Clo 0.08 w := by
  constructor
  · exact (claim_C6.1 2 ⟨SolverStatus.infeasible, none⟩ (by decide)).1
  · exact claim_C6.2 (Fin 2) 2 d7 Clo 0.08 wmv
      ((linFeasible_Clo wmv).mpr fun i => by fin_cases i <;> norm_num [wmv])
      (by rw [Fin.sum_univ_two]; norm_num [wmv])
      wmv_minimal wmv_vol_gt

/-- Claim C7: in the two-asset scenario, `[0.5, 0.5]` is the unique
feasible point of the budget, return-target and long-only constraints at
return target `0.05`; its realized volatility is `√0.0125`; and any
optimum of the risk-cone formulation at that volatility equals
`[0.5, 0.5]`, hence matches within `1e-6`. -/
theorem claim_C7 :
    (∀ w, QuadFeasible d7 Clo 0.05 w ↔ w = e7) ∧
    realizedVol d7.cov e7 = Real.sqrt 0.0125 ∧
    (∀ w, IsRiskOptimal d7 Clo L7 (realizedVol d7.cov e7) w →
      w = e7 ∧ ∀ i, |w i - e7 i| ≤ 1e-6) := by
  refine ⟨quadFeasible_d7_iff, vol_d7_e7, fun w hw => ?_⟩
  have heq := cone_d7_uniq w
    ((isRiskOptimal_iff_isConeOptimal d7 Clo hL7 _ w).mp hw)
  refine ⟨heq, fun i => ?_⟩
  rw [heq, sub_self, abs_zero]
  norm_num

/-- Claim C7, witness: the risk-cone part of the scenario claim applies
at the concrete optimum `e7`. -/
theorem claim_C7_witness :
    IsRiskOptimal d7 Clo L7 (realizedVol d7.cov e7) e7 ∧ e7 = e7 := by
  have hrisk : IsRiskOptimal d7 Clo L7 (realizedVol d7.cov e7) e7 :=
    (isRiskOptimal_iff_isConeOptimal d7 Clo hL7 _ e7).mpr cone_d7_opt_e7
  exact ⟨hrisk, (claim_C7.2.2 e7 hrisk).1⟩

/-- Claim C8: since the objective is multiplied by the positive constant
`scalar` before the call, the assembled (scaled, minimizing) problem and
the unscaled maximization have exactly the same optima — the scalar never
appears in the returned weights — and extraction of the first `I`
entries returns the solver's entries unchanged and in order. -/
theorem claim_C8 {ι : Type} {n : ℕ} (d : MomentsData n)
    (C : LinearConstraintSet ι n) (L : Matrix (Fin n) (Fin n) ℝ) (ρ : ℝ)
    (w : Fin n → ℝ) (x : Fin n ⊕ Fin n → ℝ) (i : Fin n)
    (hL : Lᵀ * L = (scalar ^ 2) • d.cov) :
    (IsRiskOptimal d C L ρ w ↔ IsConeOptimal d C ρ w) ∧
      wPart x i = x (Sum.inl i) :=
  ⟨isRiskOptimal_iff_isConeOptimal d C hL ρ w, rfl⟩

/-- Claim C8, witness: the theorem applies at the concrete scenario
objects. -/
theorem claim_C8_witness :
    (IsRiskOptimal d7 Clo L7 1 e7 ↔ IsConeOptimal d7 Clo 1 e7) ∧
      wPart xD 0 = xD (Sum.inl 0) :=
  claim_C8 d7 Clo L7 1 e7 xD 0 hL7

/-- Claim C9: the validator recomputes realized volatility, realized
return, realized tracking error and the maximum absolute elementwise
difference from the original moments data as exactly the stated
formulas; it is a total function of those inputs alone (it never reads
the solver's objective and never fails on a large discrepancy). -/
theorem claim_C9 {n : ℕ} (d : MomentsData (n + 1))
    (bm ref w : Fin (n + 1) → ℝ) :
    (validate d bm ref w).portfolioVol = Real.sqrt (w ⬝ᵥ d.cov.mulVec w) ∧
    (validate d bm ref w).expectedRet = d.means ⬝ᵥ w ∧
    (validate d bm ref w).trackingErrVol =
      Real.sqrt ((w - bm) ⬝ᵥ d.cov.mulVec (w - bm)) ∧
    (∀ i, |w i - ref i| ≤ (validate d bm ref w).maxAbsDiff) ∧
    (∃ i, (validate d bm ref w).maxAbsDiff = |w i - ref i|) := by
  refine ⟨rfl, rfl, rfl, fun i => ?_, ?_⟩
  · show |w i - ref i| ≤
      Finset.univ.sup' Finset.univ_nonempty fun j => |w j - ref j|
    exact Finset.le_sup' (fun j => |w j - ref j|) (Finset.mem_univ i)
  · show ∃ i, (Finset.univ.sup' Finset.univ_nonempty
      fun j => |w j - ref j|) = |w i - ref i|
    obtain ⟨i, _, h⟩ :=
      Finset.exists_mem_eq_sup'
        (Finset.univ_nonempty : (Finset.univ : Finset (Fin (n + 1))).Nonempty)
        (fun j => |w j - ref j|)
    exact ⟨i, h⟩

/-- Claim C10: the notebook's constraint set `0 ≤ w ≤ 0.25` together with
the budget equality has a nonempty feasible region iff `I ≥ 4`, and the
equal-weight benchmark `e_bm` satisfies all of these constraints iff
`I ≥ 4`. -/
theorem claim_C10 (n : ℕ) :
    ((∃ w : Fin n → ℝ, LinFeasible (C_nb n) w ∧ (∑ i, w i) = 1) ↔ 4 ≤ n) ∧
    ((LinFeasible (C_nb n) (e_bm n) ∧ (∑ i, e_bm n i) = 1) ↔ 4 ≤ n) := by
  constructor
  · constructor
    · rintro ⟨w, hG, hB⟩
      exact nb_feasible_imp w hG hB
    · intro h
      exact ⟨e_bm n, e_bm_feasible h⟩
  · constructor
    · rintro ⟨hG, hB⟩
      exact nb_feasible_imp _ hG hB
    · exact e_bm_feasible

end PortfolioSpec
